import Mathlib

/-!
Verification of the topic-assignment core of the AI-Data-Security repository.

The embedding models, over `List ℝ` vectors:
* `TopicModeler.assign_predefined_labels` (src/TopicModeler/topic_modeler.py,
  lines 131-175): normalize document and label embeddings, dot-product
  similarity matrix, per-row `np.argmax` (first occurrence of the maximum),
  error on an empty topic list;
* `TopicModeler.assign_labels` (lines 93-129): main labels via
  `assign_predefined_labels` over the keys of the label tree, then per
  document a sub-label from the tree entry of its main label;
* `TopicModeler.extract_keywords` (lines 54-91): per-chunk keyphrase
  extraction through a fallible capability, concatenation in chunk order,
  first-occurrence global deduplication (`dict.fromkeys`), and a
  whole-call `try/except` that turns any failure into `[]`;
* `AutoTopicModeler.assign_topic_names` (src/TopicModeler/auto_topic_modeler.py,
  lines 95-108): display names from the underscore-split topic `Name`;
* `Categorizer.assign_automatic_labels` (src/models/categorizer.py,
  lines 35-72): fixed label for the sentinel cluster -1, zero-shot
  classification otherwise;
* the confidence computation of `IntegratedProcessor.run`
  (src/processors/integrated_processor.py, lines 52-88), with the NumPy
  value-membership semantics for `topic in probabilities[i]`.

External capabilities (sentence embedder, keyphrase extractor, zero-shot
classifier, clustering output) are parameters of the definitions.
-/

namespace AIDataSec

/-- Dot product of two real vectors (`np.dot` on equal-length vectors). -/
def dot : List ℝ → List ℝ → ℝ
  | [], _ => 0
  | _ :: _, [] => 0
  | x :: xs, y :: ys => x * y + dot xs ys

/-- Euclidean norm (`np.linalg.norm`). -/
noncomputable def l2norm (v : List ℝ) : ℝ :=
  Real.sqrt (dot v v)

/-- Row normalization `v / np.linalg.norm(v)`. -/
noncomputable def l2normalize (v : List ℝ) : List ℝ :=
  v.map (fun x => x / l2norm v)

/-- Cosine similarity as the glossary of the spec defines it. -/
noncomputable def cosineSim (u v : List ℝ) : ℝ :=
  dot u v / (l2norm u * l2norm v)

/-- Maximum value of a row (helper for `argmax`). -/
noncomputable def maxVal : List ℝ → ℝ
  | [] => 0
  | [x] => x
  | x :: y :: t => max x (maxVal (y :: t))

/-- Index of the first occurrence of the maximum of a row (`np.argmax`). -/
noncomputable def argmax : List ℝ → ℕ
  | [] => 0
  | [_] => 0
  | x :: y :: t => if x < maxVal (y :: t) then argmax (y :: t) + 1 else 0

/-- Model of `TopicModeler.assign_predefined_labels`: encode the topics with the
label embedder, L2-normalize documents and topic embeddings, take the
cosine-similarity matrix, and per document pick the topic of the first
maximal similarity.  An empty topic list raises `ValueError`. -/
noncomputable def assign_predefined_labels (labelEmbed : String → List ℝ)
    (embeddings : List (List ℝ)) (topics : List String) :
    Except String (List String × List ℝ) :=
  if topics = [] then
    .error "No predefined topics provided."
  else
    let topicLabelEmbeddings := topics.map labelEmbed
    let embeddingsNorm := embeddings.map l2normalize
    let topicLabelEmbeddingsNorm := topicLabelEmbeddings.map l2normalize
    let similarities :=
      embeddingsNorm.map (fun e => topicLabelEmbeddingsNorm.map (fun t => dot e t))
    .ok (similarities.map (fun sim => topics.getD (argmax sim) ""),
         similarities.map (fun sim => sim.getD (argmax sim) 0))

/-- Python `dict.get(key, [])` on the predefined-topics dictionary
(`self.sub_topics.get(main_label, [])`).  Keys of a Python `dict` are
unique, so the first matching entry is the entry. -/
def dictGetS (tree : List (String × List String)) (k : String) : List String :=
  match tree.find? (fun p => p.1 == k) with
  | some p => p.2
  | none => []

/-- Body of the per-document loop of `TopicModeler.assign_labels`
(lines 110-123): look up the subcategory list of the assigned main
label; if it is empty append `(None, 0.0)`, otherwise pick the
subcategory of maximal cosine similarity together with that similarity. -/
noncomputable def subAssign (labelEmbed : String → List ℝ)
    (tree : List (String × List String)) (emb : List ℝ) (mainLabel : String) :
    Option String × ℝ :=
  let subTopicList := dictGetS tree mainLabel
  if subTopicList = [] then (none, 0)
  else
    let subEmbeddings := subTopicList.map labelEmbed
    let embeddingNorm := l2normalize emb
    let subEmbeddingsNorm := subEmbeddings.map l2normalize
    let similarity := subEmbeddingsNorm.map (fun s => dot s embeddingNorm)
    (some (subTopicList.getD (argmax similarity) ""),
     similarity.getD (argmax similarity) 0)

/-- Model of `TopicModeler.assign_labels`: main labels over the keys of the tree, then
per document the sub-label from the loop; the function returns
`(main_labels, sub_labels, main_confidences)` — the values of
`sub_confidences` are computed in the loop but not returned. -/
noncomputable def assign_labels (labelEmbed : String → List ℝ)
    (tree : List (String × List String)) (embeddings : List (List ℝ)) :
    Except String (List String × List (Option String) × List ℝ) :=
  match assign_predefined_labels labelEmbed embeddings (tree.map Prod.fst) with
  | .error e => .error e
  | .ok (mainLabels, mainConfidences) =>
      let subResults :=
        (embeddings.zip mainLabels).map
          (fun p => subAssign labelEmbed tree p.1 p.2)
      .ok (mainLabels, subResults.map Prod.fst, mainConfidences)

/-- Python `list(dict.fromkeys(l))`: global deduplication keeping the first
occurrence of every element, in order. -/
def dedupFirst : List String → List String
  | [] => []
  | a :: l => a :: dedupFirst (l.filter (fun b => b ≠ a))
termination_by l => l.length
decreasing_by
  simpa using Nat.lt_succ_of_le (List.length_filter_le _ _)

/-- The chunk loop of `TopicModeler.extract_keywords` (lines 71-82):
call the keyphrase-extraction capability on every chunk in order, keep
the phrases (dropping the scores), and concatenate; the first failing
chunk aborts the loop with its exception. -/
def chunkPhrases (extractCap : String → Except String (List (String × ℚ))) :
    List String → Except String (List String)
  | [] => .ok []
  | c :: rest =>
      match extractCap c with
      | .error e => .error e
      | .ok kws =>
          match chunkPhrases extractCap rest with
          | .error e => .error e
          | .ok rs => .ok (kws.map Prod.fst ++ rs)

/-- Model of `TopicModeler.extract_keywords`: chunk the document, run the chunk
loop, deduplicate first-occurrence; the whole body sits in one
`try/except` that returns `[]` on any failure. -/
def extract_keywords (wrap : String → List String)
    (extractCap : String → Except String (List (String × ℚ))) (doc : String) :
    List String :=
  match chunkPhrases extractCap (wrap doc) with
  | .ok allKeywords => dedupFirst allKeywords
  | .error _ => []

/-- Whether an `Except` result is a success (the call did not raise). -/
def exceptOk {α : Type} : Except String α → Bool
  | .ok _ => true
  | .error _ => false

/-- An `Except` value is a failure. -/
def isErr {α : Type} (x : Except String α) : Prop :=
  ∃ e, x = .error e

/-- Python `str.split(sep)` on the character list: split at every
occurrence of the separator (empty string gives one empty field). -/
def splitOnChar (sep : Char) : List Char → List (List Char)
  | [] => [[]]
  | c :: rest =>
      match splitOnChar sep rest with
      | [] => [[c]]
      | cur :: parts =>
          if c = sep then [] :: cur :: parts else (c :: cur) :: parts

/-- Python `s.split("_")` for a one-character separator. -/
def pySplit (s : String) (sep : Char) : List String :=
  (splitOnChar sep s.toList).map (fun cs => String.mk cs)

/-- The expression `" ".join(row["Name"].split("_")[1:3])` of
`AutoTopicModeler.assign_topic_names` (line 102). -/
def joinSplitName (name : String) : String :=
  String.intercalate " " (((pySplit name '_').drop 1).take 2)

/-- Value stored in `topic_name_mapping` for one topic-summary row:
the underscore-split join unless the reported `Name` is literally
`"No Topic"`. -/
def nameResolve (name : String) : String :=
  if name ≠ "No Topic" then joinSplitName name else "No Topic"

/-- Python `dict.get(key, default)` on a dict built by repeated
assignment: the last binding of a key wins. -/
def dictGetI (m : List (Int × String)) (k : Int) (dflt : String) : String :=
  match m.reverse.find? (fun p => p.1 == k) with
  | some p => p.2
  | none => dflt

/-- Model of `AutoTopicModeler.assign_topic_names`: build `topic_name_mapping`
from the topic summary `(Topic, Name)` rows, then map the
cluster id of every document through it with default `"No Topic"`. -/
def assign_topic_names (topicInfo : List (Int × String)) (topics : List Int) :
    List String :=
  let topicNameMapping := topicInfo.map (fun p => (p.1, nameResolve p.2))
  topics.map (fun t => dictGetI topicNameMapping t "No Topic")

/-- One row of `Categorizer.assign_automatic_labels` (lines 42-67):
the sentinel cluster -1 gets the fixed label; any other cluster is
named by the zero-shot classifier over the top ten cluster
keywords, falling back to a generated name. -/
def autoLabelRow (classify : String → List String → List String)
    (getTopics : Int → List (String × ℚ)) (topicId : Int) : String :=
  if topicId = -1 then "خارج از دسته‌بندی"
  else
    let topicWords := ((getTopics topicId).map Prod.fst).take 10
    let topicDesc := String.intercalate " " topicWords
    match classify topicDesc topicWords with
    | best :: _ => best
    | [] => "موضوع " ++ toString topicId

/-- Model of `Categorizer.assign_automatic_labels`: fill `self.topic_labels`
with one entry per topic-summary row. -/
def assign_automatic_labels (classify : String → List String → List String)
    (getTopics : Int → List (String × ℚ)) (topicIds : List Int) :
    List (Int × String) :=
  topicIds.map (fun t => (t, autoLabelRow classify getTopics t))

/-- The expression `probabilities[i][topic] if topic in probabilities[i] else 0` of
`IntegratedProcessor.run` (lines 56-59 and 79-82), with NumPy
semantics: `topic in row` tests membership of the VALUE `topic` among
the entries of the row, and `row[topic]` indexes from the end when `topic`
is negative. -/
def assignedTopicProb (row : List ℚ) (topic : Int) : ℚ :=
  if (topic : ℚ) ∈ row then
    (if 0 ≤ topic then row.getD topic.toNat 0
     else row.getD (row.length - (-topic).toNat) 0)
  else 0

/-- The `assigned_topic_probs` comprehension of `IntegratedProcessor.run`:
one confidence per document. -/
def assignedTopicProbs (probabilities : List (List ℚ)) (topics : List Int) :
    List ℚ :=
  (probabilities.zip topics).map (fun p => assignedTopicProb p.1 p.2)

/-- Modelled from the spec: "join the 2nd and 3rd most significant
tokens as the display name" — given the keyword tokens of the cluster in
decreasing order of significance, join the tokens of ranks 2 and 3. -/
def specDisplayName (keywordTokens : List String) : String :=
  String.intercalate " " ((keywordTokens.drop 1).take 2)

end AIDataSec

namespace AIDataSec

/-! ### Vector lemmas -/

theorem dot_nil_left (v : List ℝ) : dot [] v = 0 := by
  cases v <;> rfl

theorem dot_nil_right (v : List ℝ) : dot v [] = 0 := by
  cases v <;> rfl

theorem dot_cons (x y : ℝ) (xs ys : List ℝ) :
    dot (x :: xs) (y :: ys) = x * y + dot xs ys := rfl

theorem dot_self_nonneg (v : List ℝ) : 0 ≤ dot v v := by
  induction v with
  | nil => simp [dot_nil_left]
  | cons x xs ih => rw [dot_cons]; exact add_nonneg (mul_self_nonneg x) ih

/-- Cauchy-Schwarz for the list dot product. -/
theorem dot_sq_le (u v : List ℝ) : dot u v ^ 2 ≤ dot u u * dot v v := by
  induction u generalizing v with
  | nil => simp [dot_nil_left]
  | cons x xs ih =>
    cases v with
    | nil => simp [dot_nil_right]
    | cons y ys =>
      rw [dot_cons, dot_cons, dot_cons]
      have h1 := ih ys
      have h2 := dot_self_nonneg xs
      have h3 := dot_self_nonneg ys
      by_cases hA : dot xs xs = 0
      · have hd : dot xs ys = 0 := by
          have h6 : dot xs ys ^ 2 ≤ 0 := by
            have := h1
            rw [hA, zero_mul] at this
            exact this
          have h5 : dot xs ys ^ 2 = 0 := le_antisymm h6 (sq_nonneg _)
          exact pow_eq_zero_iff (two_ne_zero) |>.mp h5
        rw [hA, hd]
        nlinarith [mul_nonneg (mul_self_nonneg x) h3]
      · have hA' : 0 < dot xs xs := lt_of_le_of_ne h2 (Ne.symm hA)
        nlinarith [sq_nonneg (x * dot xs ys - y * dot xs xs),
          mul_nonneg (sq_nonneg x) (sub_nonneg.mpr h1),
          mul_nonneg h2 (sub_nonneg.mpr h1), hA', h3]

theorem l2norm_nonneg (v : List ℝ) : 0 ≤ l2norm v := Real.sqrt_nonneg _

theorem l2norm_pos (v : List ℝ) (hv : dot v v ≠ 0) : 0 < l2norm v :=
  Real.sqrt_pos.mpr (lt_of_le_of_ne (dot_self_nonneg v) (Ne.symm hv))

theorem abs_dot_le (u v : List ℝ) : |dot u v| ≤ l2norm u * l2norm v := by
  have h1 : |dot u v| = Real.sqrt (dot u v ^ 2) := (Real.sqrt_sq_eq_abs _).symm
  rw [h1, l2norm, l2norm]
  calc Real.sqrt (dot u v ^ 2) ≤ Real.sqrt (dot u u * dot v v) :=
        Real.sqrt_le_sqrt (dot_sq_le u v)
    _ = Real.sqrt (dot u u) * Real.sqrt (dot v v) :=
        Real.sqrt_mul (dot_self_nonneg u) _

theorem dot_map_div (u v : List ℝ) (a b : ℝ) :
    dot (u.map (fun x => x / a)) (v.map (fun x => x / b)) = dot u v / (a * b) := by
  induction u generalizing v with
  | nil => simp [dot_nil_left]
  | cons x xs ih =>
    cases v with
    | nil => simp [dot_nil_right]
    | cons y ys =>
      simp only [List.map_cons, dot_cons, ih]
      rw [div_mul_div_comm, div_add_div_same]

/-- The normalize-then-dot similarity of the code is the cosine of the spec. -/
theorem dot_l2normalize (u v : List ℝ) :
    dot (l2normalize u) (l2normalize v) = cosineSim u v := by
  rw [l2normalize, l2normalize, cosineSim, dot_map_div]

theorem cosineSim_mem_Icc (u v : List ℝ) (hu : dot u u ≠ 0) (hv : dot v v ≠ 0) :
    -1 ≤ cosineSim u v ∧ cosineSim u v ≤ 1 := by
  have hpos : 0 < l2norm u * l2norm v :=
    mul_pos (l2norm_pos u hu) (l2norm_pos v hv)
  have habs : |cosineSim u v| ≤ 1 := by
    rw [cosineSim, abs_div, abs_of_pos hpos]
    exact (div_le_one hpos).mpr (abs_dot_le u v)
  exact abs_le.mp habs

theorem dot_map_mul (c : ℝ) (u v : List ℝ) :
    dot (u.map (fun x => c * x)) (v.map (fun x => c * x)) = c ^ 2 * dot u v := by
  induction u generalizing v with
  | nil => simp [dot_nil_left]
  | cons x xs ih =>
    cases v with
    | nil => simp [dot_nil_right]
    | cons y ys =>
      simp only [List.map_cons, dot_cons, ih]
      ring

theorem l2norm_map_mul (c : ℝ) (hc : 0 ≤ c) (v : List ℝ) :
    l2norm (v.map (fun x => c * x)) = c * l2norm v := by
  rw [l2norm, l2norm, dot_map_mul, Real.sqrt_mul (sq_nonneg c), Real.sqrt_sq hc]

theorem l2normalize_map_mul (c : ℝ) (hc : 0 < c) (v : List ℝ) :
    l2normalize (v.map (fun x => c * x)) = l2normalize v := by
  rw [l2normalize, l2normalize, l2norm_map_mul c hc.le, List.map_map]
  congr 1
  funext x
  exact mul_div_mul_left x _ hc.ne'

/-! ### argmax lemmas (`np.argmax` picks the first maximum) -/

theorem argmax_lt_length (l : List ℝ) (h : l ≠ []) : argmax l < l.length := by
  induction l with
  | nil => exact absurd rfl h
  | cons x xs ih =>
    cases xs with
    | nil => simp [argmax]
    | cons y t =>
      rw [argmax]
      by_cases h1 : x < maxVal (y :: t)
      · rw [if_pos h1]
        have := ih (by simp)
        simpa [List.length_cons] using Nat.succ_lt_succ this
      · rw [if_neg h1]
        simp

theorem getD_argmax_eq_maxVal (l : List ℝ) (h : l ≠ []) :
    l.getD (argmax l) 0 = maxVal l := by
  induction l with
  | nil => exact absurd rfl h
  | cons x xs ih =>
    cases xs with
    | nil => simp [argmax, maxVal]
    | cons y t =>
      rw [argmax, maxVal]
      by_cases h1 : x < maxVal (y :: t)
      · rw [if_pos h1, List.getD_cons_succ, ih (by simp), max_eq_right h1.le]
      · rw [if_neg h1, List.getD_cons_zero, max_eq_left (not_lt.mp h1)]

theorem getD_le_maxVal (l : List ℝ) (j : ℕ) (hj : j < l.length) :
    l.getD j 0 ≤ maxVal l := by
  induction l generalizing j with
  | nil => simp at hj
  | cons x xs ih =>
    cases xs with
    | nil =>
      have hj0 : j = 0 := by simpa using Nat.lt_one_iff.mp (by simpa using hj)
      subst hj0
      simp [maxVal]
    | cons y t =>
      rw [maxVal]
      cases j with
      | zero => rw [List.getD_cons_zero]; exact le_max_left _ _
      | succ j' =>
        rw [List.getD_cons_succ]
        exact le_trans (ih j' (by simpa using hj)) (le_max_right _ _)

theorem getD_lt_of_lt_argmax (l : List ℝ) (j : ℕ) (hj : j < argmax l) :
    l.getD j 0 < maxVal l := by
  induction l generalizing j with
  | nil => simp [argmax] at hj
  | cons x xs ih =>
    cases xs with
    | nil => simp [argmax] at hj
    | cons y t =>
      rw [argmax] at hj
      by_cases h1 : x < maxVal (y :: t)
      · rw [if_pos h1] at hj
        rw [maxVal, max_eq_right h1.le]
        cases j with
        | zero => simpa using h1
        | succ j' =>
          rw [List.getD_cons_succ]
          exact ih j' (Nat.lt_of_succ_lt_succ hj)
      · rw [if_neg h1] at hj
        omega

/-! ### Shape of the assignment result -/

/-- The similarity row one document contributes to the matrix
`np.dot(embeddings_norm, topic_label_embeddings_norm.T)`. -/
noncomputable def simRow (labelEmbed : String → List ℝ) (topics : List String)
    (e : List ℝ) : List ℝ :=
  ((topics.map labelEmbed).map l2normalize).map (fun t => dot (l2normalize e) t)

theorem simRow_length (labelEmbed : String → List ℝ) (topics : List String)
    (e : List ℝ) : (simRow labelEmbed topics e).length = topics.length := by
  simp [simRow]

theorem getD_map_lt {α β : Type} (f : α → β) (l : List α) (i : ℕ)
    (hi : i < l.length) (d : α) (d' : β) : (l.map f).getD i d' = f (l.getD i d) := by
  rw [List.getD_eq_getElem _ _ (by simpa using hi), List.getElem_map,
    List.getD_eq_getElem _ _ hi]

theorem simRow_getD (labelEmbed : String → List ℝ) (topics : List String)
    (e : List ℝ) (j : ℕ) (hj : j < topics.length) :
    (simRow labelEmbed topics e).getD j 0 =
      cosineSim e (labelEmbed (topics.getD j "")) := by
  rw [simRow, getD_map_lt _ _ j (by simpa using hj) ([] : List ℝ),
    getD_map_lt _ _ j (by simpa using hj) ([] : List ℝ),
    getD_map_lt _ _ j hj "", dot_l2normalize]

theorem assign_predefined_labels_ok (labelEmbed : String → List ℝ)
    (embeddings : List (List ℝ)) (topics : List String) (htop : topics ≠ []) :
    assign_predefined_labels labelEmbed embeddings topics =
      .ok (embeddings.map
             (fun e => topics.getD (argmax (simRow labelEmbed topics e)) ""),
           embeddings.map
             (fun e => (simRow labelEmbed topics e).getD
               (argmax (simRow labelEmbed topics e)) 0)) := by
  simp only [assign_predefined_labels, if_neg htop, simRow, List.map_map]
  rfl

theorem getD_mem {α : Type} (l : List α) (i : ℕ) (hi : i < l.length) (d : α) :
    l.getD i d ∈ l := by
  rw [List.getD_eq_getElem _ _ hi]
  exact List.getElem_mem _

/-! ### Claim theorems -/

/-- C1: for a non-empty label list and a batch of non-zero document
embeddings (with non-zero label embeddings), `assign_predefined_labels`
returns one (label, score) pair per input embedding in input order;
each label is a member of the list, is the label of maximum cosine
similarity to the document (ties broken in favour of the first
occurrence in label order), the score is that cosine similarity, and
every score lies in [-1, 1]. -/
theorem C1_assign_predefined_labels_correct (labelEmbed : String → List ℝ)
    (embeddings : List (List ℝ)) (topics : List String)
    (htop : topics ≠ [])
    (hemb : ∀ v ∈ embeddings, dot v v ≠ 0)
    (hlab : ∀ t ∈ topics, dot (labelEmbed t) (labelEmbed t) ≠ 0) :
    ∃ labels confidences,
      assign_predefined_labels labelEmbed embeddings topics =
        .ok (labels, confidences) ∧
      labels.length = embeddings.length ∧
      confidences.length = embeddings.length ∧
      ∀ i, i < embeddings.length →
        labels.getD i "" ∈ topics ∧
        -1 ≤ confidences.getD i 0 ∧ confidences.getD i 0 ≤ 1 ∧
        ∃ k, k < topics.length ∧
          labels.getD i "" = topics.getD k "" ∧
          confidences.getD i 0 =
            cosineSim (embeddings.getD i []) (labelEmbed (topics.getD k "")) ∧
          (∀ j, j < topics.length →
            cosineSim (embeddings.getD i []) (labelEmbed (topics.getD j "")) ≤
              cosineSim (embeddings.getD i []) (labelEmbed (topics.getD k ""))) ∧
          (∀ j, j < k →
            cosineSim (embeddings.getD i []) (labelEmbed (topics.getD j "")) <
              cosineSim (embeddings.getD i []) (labelEmbed (topics.getD k ""))) := by
  refine ⟨_, _, assign_predefined_labels_ok labelEmbed embeddings topics htop,
    by simp, by simp, ?_⟩
  intro i hi
  set E : List ℝ := embeddings.getD i [] with hE
  have hEmem : E ∈ embeddings := getD_mem embeddings i hi []
  have hrowlen : (simRow labelEmbed topics E).length = topics.length :=
    simRow_length labelEmbed topics E
  have hrowne : simRow labelEmbed topics E ≠ [] := by
    intro hcon
    rw [hcon] at hrowlen
    exact htop (List.length_eq_zero.mp hrowlen.symm)
  set k : ℕ := argmax (simRow labelEmbed topics E) with hk
  have hkl : k < topics.length := by
    rw [← hrowlen]
    exact argmax_lt_length _ hrowne
  have hlabelsD :
      (embeddings.map
        (fun e => topics.getD (argmax (simRow labelEmbed topics e)) "")).getD i ""
        = topics.getD k "" := by
    rw [getD_map_lt _ _ i hi ([] : List ℝ)]
  have hconfD :
      (embeddings.map
        (fun e => (simRow labelEmbed topics e).getD
          (argmax (simRow labelEmbed topics e)) 0)).getD i 0
        = (simRow labelEmbed topics E).getD k 0 := by
    rw [getD_map_lt _ _ i hi ([] : List ℝ)]
  have hconf : (simRow labelEmbed topics E).getD k 0 =
      cosineSim E (labelEmbed (topics.getD k "")) :=
    simRow_getD labelEmbed topics E k hkl
  have hkmem : topics.getD k "" ∈ topics := getD_mem topics k hkl ""
  have hbounds :
      -1 ≤ cosineSim E (labelEmbed (topics.getD k "")) ∧
        cosineSim E (labelEmbed (topics.getD k "")) ≤ 1 :=
    cosineSim_mem_Icc E _ (hemb E hEmem) (hlab _ hkmem)
  refine ⟨?_, ?_, ?_, k, hkl, hlabelsD, by rw [hconfD, hconf], ?_, ?_⟩
  · rw [hlabelsD]; exact hkmem
  · rw [hconfD, hconf]; exact hbounds.1
  · rw [hconfD, hconf]; exact hbounds.2
  · intro j hj
    have h1 : cosineSim E (labelEmbed (topics.getD j "")) =
        (simRow labelEmbed topics E).getD j 0 :=
      (simRow_getD labelEmbed topics E j hj).symm
    have h2 := getD_le_maxVal (simRow labelEmbed topics E) j (by omega)
    rw [h1, ← hconf, hk, getD_argmax_eq_maxVal _ hrowne]
    exact h2
  · intro j hj
    have hjl : j < topics.length := lt_trans hj hkl
    have h1 : cosineSim E (labelEmbed (topics.getD j "")) =
        (simRow labelEmbed topics E).getD j 0 :=
      (simRow_getD labelEmbed topics E j hjl).symm
    have h2 := getD_lt_of_lt_argmax (simRow labelEmbed topics E) j (by omega)
    rw [h1, ← hconf, hk, getD_argmax_eq_maxVal _ hrowne]
    exact h2

/-- C1 witness: the hypotheses of `C1_assign_predefined_labels_correct`
hold at a concrete one-document batch with label list `["A"]`, and the
returned label is a member of the list. -/
theorem C1_witness :
    ∃ labels confidences,
      assign_predefined_labels (fun _ => ([1] : List ℝ)) [[1]] ["A"] =
        .ok (labels, confidences) ∧ labels.getD 0 "" ∈ ["A"] := by
  obtain ⟨labels, confs, h1, _, _, h4⟩ :=
    C1_assign_predefined_labels_correct (fun _ => [1]) [[1]] ["A"]
      (by simp)
      (by intro v hv; simp at hv; subst hv; norm_num [dot])
      (by intro t _; norm_num [dot])
  exact ⟨labels, confs, h1, (h4 0 (by simp)).1⟩

/-- C5: calling `assign_predefined_labels` with an empty label list
raises `ValueError("No predefined topics provided.")` for every batch
of embeddings: no assignment result is produced. -/
theorem C5_empty_label_set_errors (labelEmbed : String → List ℝ)
    (embeddings : List (List ℝ)) :
    assign_predefined_labels labelEmbed embeddings [] =
      .error "No predefined topics provided." := by
  simp [assign_predefined_labels]

/-- C3 counterexample: a batch whose only document embedding is the
zero vector (zero Euclidean norm) does NOT make
`assign_predefined_labels` fail — the call still returns a result. -/
theorem C3_counterexample :
    exceptOk (assign_predefined_labels (fun _ => ([1] : List ℝ)) [[0]] ["A"])
      = true := by
  rw [assign_predefined_labels_ok _ _ _ (by simp)]
  rfl

/-- C3 amended: `assign_predefined_labels` performs no zero-norm
validation.  For any batch — zero-norm vectors included — and any
non-empty label list the call returns a result with one (label, score)
pair per embedding; the only validation error is the empty label list. -/
theorem C3_amended_no_zero_norm_check (labelEmbed : String → List ℝ)
    (embeddings : List (List ℝ)) (topics : List String) (htop : topics ≠ []) :
    ∃ labels confidences,
      assign_predefined_labels labelEmbed embeddings topics =
        .ok (labels, confidences) ∧
      labels.length = embeddings.length ∧
      confidences.length = embeddings.length :=
  ⟨_, _, assign_predefined_labels_ok labelEmbed embeddings topics htop,
    by simp, by simp⟩

/-- C3 witness: the amended statement applied to a concrete batch that
contains zero-norm embeddings. -/
theorem C3_witness :
    ∃ labels confidences,
      assign_predefined_labels (fun _ => ([1] : List ℝ)) [[0], [0, 0]] ["A"] =
        .ok (labels, confidences) ∧
      labels.length = 2 ∧ confidences.length = 2 := by
  obtain ⟨l, cs, h1, h2, h3⟩ :=
    C3_amended_no_zero_norm_check (fun _ => [1]) [[0], [0, 0]] ["A"] (by simp)
  exact ⟨l, cs, h1, by simpa using h2, by simpa using h3⟩

/-- C6: multiplying every document embedding of the batch by a positive
constant changes neither the assigned labels nor the returned scores:
the whole result of `assign_predefined_labels` is unchanged. -/
theorem C6_scaling_invariance (labelEmbed : String → List ℝ)
    (embeddings : List (List ℝ)) (topics : List String) (c : ℝ)
    (hc : 0 < c) (htop : topics ≠ [])
    (_hemb : ∀ v ∈ embeddings, dot v v ≠ 0) :
    assign_predefined_labels labelEmbed
        (embeddings.map (List.map (fun x => c * x))) topics =
      assign_predefined_labels labelEmbed embeddings topics := by
  unfold assign_predefined_labels
  simp only [if_neg htop]
  have hnorm : (embeddings.map (List.map (fun x => c * x))).map l2normalize =
      embeddings.map l2normalize := by
    rw [List.map_map]
    congr 1
    funext v
    exact l2normalize_map_mul c hc v
  rw [hnorm]

/-- C6 witness: scaling a concrete non-zero one-document batch by 2
leaves the assignment result unchanged. -/
theorem C6_witness :
    assign_predefined_labels (fun _ => ([1] : List ℝ))
        ([[3]].map (List.map (fun x => (2 : ℝ) * x))) ["A"] =
      assign_predefined_labels (fun _ => ([1] : List ℝ)) [[3]] ["A"] :=
  C6_scaling_invariance (fun _ => [1]) [[3]] ["A"] 2 (by norm_num) (by simp)
    (by intro v hv; simp at hv; subst hv; norm_num [dot])

theorem subAssign_empty (labelEmbed : String → List ℝ)
    (tree : List (String × List String)) (emb : List ℝ) (mainLabel : String)
    (hL : dictGetS tree mainLabel = []) :
    subAssign labelEmbed tree emb mainLabel = (none, 0) := by
  simp [subAssign, hL]

theorem subAssign_nonempty (labelEmbed : String → List ℝ)
    (tree : List (String × List String)) (emb : List ℝ) (mainLabel : String)
    (hL : dictGetS tree mainLabel ≠ []) :
    ∃ s, (subAssign labelEmbed tree emb mainLabel).1 = some s ∧
      s ∈ dictGetS tree mainLabel := by
  set L : List String := dictGetS tree mainLabel with hLdef
  have hsimlen :
      (((L.map labelEmbed).map l2normalize).map
        (fun s => dot s (l2normalize emb))).length = L.length := by simp
  have hsimne :
      ((L.map labelEmbed).map l2normalize).map
        (fun s => dot s (l2normalize emb)) ≠ [] := by
    intro hcon
    rw [hcon] at hsimlen
    exact hL (List.length_eq_zero.mp hsimlen.symm)
  have hidx := argmax_lt_length _ hsimne
  rw [hsimlen] at hidx
  refine ⟨L.getD (argmax (((L.map labelEmbed).map l2normalize).map
    (fun s => dot s (l2normalize emb)))) "", ?_, getD_mem L _ hidx ""⟩
  simp only [subAssign, ← hLdef, if_neg hL]

/-- C2: whenever `assign_labels` returns, the sub-label of every document is
either `None` — exactly when the subcategory list of its assigned main
label is empty, in which case the sub-score of the loop is 0 — or a member
of that subcategory list. -/
theorem C2_sub_labels_in_tree (labelEmbed : String → List ℝ)
    (tree : List (String × List String)) (embeddings : List (List ℝ))
    (mains : List String) (subs : List (Option String)) (confs : List ℝ)
    (h : assign_labels labelEmbed tree embeddings = .ok (mains, subs, confs)) :
    subs.length = embeddings.length ∧
    ∀ i, i < embeddings.length →
      (dictGetS tree (mains.getD i "") = [] →
        subs.getD i none = none ∧
        (subAssign labelEmbed tree (embeddings.getD i [])
          (mains.getD i "")).2 = 0) ∧
      (dictGetS tree (mains.getD i "") ≠ [] →
        ∃ s, subs.getD i none = some s ∧
          s ∈ dictGetS tree (mains.getD i "")) := by
  by_cases htop : tree.map Prod.fst = []
  · rw [assign_labels] at h
    rw [show assign_predefined_labels labelEmbed embeddings (tree.map Prod.fst)
        = .error "No predefined topics provided." by
      rw [htop]; exact C5_empty_label_set_errors labelEmbed embeddings] at h
    exact absurd h (by simp)
  · rw [assign_labels, assign_predefined_labels_ok _ _ _ htop] at h
    simp only [Except.ok.injEq, Prod.mk.injEq] at h
    obtain ⟨hmains, hsubs, _⟩ := h
    rw [hmains] at hsubs
    have hmlen : mains.length = embeddings.length := by
      rw [← hmains]; simp
    have hzlen : (embeddings.zip mains).length = embeddings.length := by
      rw [List.length_zip, hmlen, Nat.min_self]
    have hslen : subs.length = embeddings.length := by
      rw [← hsubs]; simp [hzlen]
    refine ⟨hslen, ?_⟩
    intro i hi
    have hentry : subs.getD i none =
        (subAssign labelEmbed tree (embeddings.getD i [])
          (mains.getD i "")).1 := by
      rw [← hsubs,
        getD_map_lt Prod.fst _ i (by simp [hzlen, hi])
          ((none : Option String), (0 : ℝ)),
        getD_map_lt _ _ i (by simpa [hzlen] using hi) (([] : List ℝ), "")]
      congr 1
      rw [List.getD_eq_getElem _ _ (by simpa [hzlen] using hi),
        List.getElem_zip,
        List.getD_eq_getElem _ _ hi,
        List.getD_eq_getElem _ _ (by omega)]
    constructor
    · intro hL
      rw [hentry, subAssign_empty _ _ _ _ hL]
      exact ⟨rfl, rfl⟩
    · intro hL
      obtain ⟨s, hs1, hs2⟩ :=
        subAssign_nonempty labelEmbed tree (embeddings.getD i [])
          (mains.getD i "") hL
      exact ⟨s, by rw [hentry, hs1], hs2⟩

/-- C2 witness: a concrete run of `assign_labels` on a one-entry label
tree whose subcategory list is empty returns sub-label `None` with
sub-score 0. -/
theorem C2_witness :
    (([none] : List (Option String)).getD 0 none = none) ∧
    (subAssign (fun _ => ([1] : List ℝ)) [("M", [])]
      (([[1]] : List (List ℝ)).getD 0 [])
      ((["M"] : List String).getD 0 "")).2 = 0 := by
  have heval : assign_labels (fun _ => ([1] : List ℝ)) [("M", [])] [[1]] =
      .ok (["M"], [none], [dot (l2normalize [1]) (l2normalize [1])]) := by
    rw [assign_labels, assign_predefined_labels_ok _ _ _ (by simp)]
    simp [simRow, argmax, subAssign, dictGetS]
  have h := C2_sub_labels_in_tree (fun _ => ([1] : List ℝ)) [("M", [])] [[1]]
    ["M"] [none] [dot (l2normalize [1]) (l2normalize [1])] heval
  exact (h.2 0 (by simp)).1 (by simp [dictGetS])

/-! ### Keyword extraction: deduplication and failure handling -/

theorem dedupFirst_cons (a : String) (l : List String) :
    dedupFirst (a :: l) = a :: dedupFirst (l.filter (fun b => b ≠ a)) := by
  rw [dedupFirst]

theorem mem_dedupFirst (l : List String) (b : String) :
    b ∈ dedupFirst l ↔ b ∈ l := by
  induction l using dedupFirst.induct with
  | case1 => rw [dedupFirst]
  | case2 a t ih =>
    rw [dedupFirst_cons, List.mem_cons, List.mem_cons, ih, List.mem_filter]
    by_cases hba : b = a
    · simp [hba]
    · simp [hba]

theorem nodup_dedupFirst (l : List String) : (dedupFirst l).Nodup := by
  induction l using dedupFirst.induct with
  | case1 => rw [dedupFirst]; exact List.nodup_nil
  | case2 a t ih =>
    rw [dedupFirst_cons]
    refine List.Nodup.cons ?_ ih
    intro hmem
    have := (List.mem_filter.mp ((mem_dedupFirst _ _).mp hmem)).2
    simp at this

theorem count_dedupFirst (l : List String) (p : String) (hp : p ∈ l) :
    (dedupFirst l).count p = 1 :=
  List.count_eq_one_of_mem (nodup_dedupFirst l) ((mem_dedupFirst l p).mpr hp)

theorem indexOf_filter_lt (f : String → Bool) (l : List String) (p q : String)
    (hp : p ∈ l.filter f) (hq : q ∈ l.filter f)
    (h : (l.filter f).indexOf p < (l.filter f).indexOf q) :
    l.indexOf p < l.indexOf q := by
  induction l with
  | nil => simp at hp
  | cons x t ih =>
    by_cases hfx : f x
    · rw [List.filter_cons_of_pos hfx] at hp hq h
      by_cases hpx : p = x
      · subst hpx
        by_cases hqx : q = p
        · subst hqx
          exact absurd h (lt_irrefl _)
        · rw [List.indexOf_cons_self,
            List.indexOf_cons_ne t (fun hc => hqx hc.symm)]
          exact Nat.succ_pos _
      · by_cases hqx : q = x
        · subst hqx
          rw [List.indexOf_cons_self] at h
          exact absurd h (Nat.not_lt_zero _)
        · rw [List.indexOf_cons_ne _ (fun hc => hpx hc.symm),
            List.indexOf_cons_ne _ (fun hc => hqx hc.symm)] at h
          rw [List.indexOf_cons_ne t (fun hc => hpx hc.symm),
            List.indexOf_cons_ne t (fun hc => hqx hc.symm)]
          have hp' : p ∈ t.filter f := by
            rcases List.mem_cons.mp hp with hc | hc
            · exact absurd hc hpx
            · exact hc
          have hq' : q ∈ t.filter f := by
            rcases List.mem_cons.mp hq with hc | hc
            · exact absurd hc hqx
            · exact hc
          exact Nat.succ_lt_succ (ih hp' hq' (Nat.lt_of_succ_lt_succ h))
    · rw [List.filter_cons_of_neg hfx] at hp hq h
      have hpx : p ≠ x := by
        rintro rfl
        exact hfx (List.mem_filter.mp hp).2
      have hqx : q ≠ x := by
        rintro rfl
        exact hfx (List.mem_filter.mp hq).2
      rw [List.indexOf_cons_ne t (fun hc => hpx hc.symm),
        List.indexOf_cons_ne t (fun hc => hqx hc.symm)]
      exact Nat.succ_lt_succ (ih hp hq h)

/-- Lemma: `dedupFirst` keeps elements in the order of their first occurrence:
the surviving occurrences are strictly ordered by `indexOf` (the index
of the first occurrence) in the source list. -/
theorem pairwise_indexOf_dedupFirst (l : List String) :
    List.Pairwise (fun p q => l.indexOf p < l.indexOf q) (dedupFirst l) := by
  induction l using dedupFirst.induct with
  | case1 => rw [dedupFirst]; exact List.Pairwise.nil
  | case2 a t ih =>
    rw [dedupFirst_cons]
    refine List.Pairwise.cons ?_ ?_
    · intro q hq
      have hqf : q ∈ t.filter (fun b => b ≠ a) :=
        (mem_dedupFirst _ _).mp hq
      have hqa : q ≠ a := by
        have := (List.mem_filter.mp hqf).2
        simpa using this
      rw [List.indexOf_cons_self, List.indexOf_cons_ne t (fun hc => hqa hc.symm)]
      exact Nat.succ_pos _
    · refine List.Pairwise.imp_of_mem ?_ ih
      intro p q hpm hqm hlt
      have hpf : p ∈ t.filter (fun b => b ≠ a) := (mem_dedupFirst _ _).mp hpm
      have hqf : q ∈ t.filter (fun b => b ≠ a) := (mem_dedupFirst _ _).mp hqm
      have hpa : p ≠ a := by
        have := (List.mem_filter.mp hpf).2
        simpa using this
      have hqa : q ≠ a := by
        have := (List.mem_filter.mp hqf).2
        simpa using this
      rw [List.indexOf_cons_ne t (fun hc => hpa hc.symm),
        List.indexOf_cons_ne t (fun hc => hqa hc.symm)]
      exact Nat.succ_lt_succ (indexOf_filter_lt _ t p q hpf hqf hlt)

/-- When the capability succeeds on every chunk, the chunk loop returns
the concatenation of the per-chunk phrase lists in chunk order. -/
theorem chunkPhrases_ok (extractCap : String → Except String (List (String × ℚ)))
    (chunks : List String) (phr : List (List (String × ℚ)))
    (h : List.Forall₂ (fun c kws => extractCap c = .ok kws) chunks phr) :
    chunkPhrases extractCap chunks =
      .ok ((phr.map (fun kws => kws.map Prod.fst)).flatten) := by
  induction h with
  | nil => rw [chunkPhrases]; simp
  | @cons c kws cs kwss hck _ ih =>
    rw [chunkPhrases, hck, ih]
    simp

/-- If the capability fails on some chunk, the chunk loop fails. -/
theorem chunkPhrases_err (extractCap : String → Except String (List (String × ℚ)))
    (chunks : List String) (c : String) (hc : c ∈ chunks)
    (he : isErr (extractCap c)) : isErr (chunkPhrases extractCap chunks) := by
  induction chunks with
  | nil => simp at hc
  | cons d rest ih =>
    rcases List.mem_cons.mp hc with hcd | hcd
    · subst hcd
      obtain ⟨e, he'⟩ := he
      exact ⟨e, by rw [chunkPhrases, he']⟩
    · cases hcap : extractCap d with
      | error e => exact ⟨e, by rw [chunkPhrases, hcap]⟩
      | ok kws =>
          obtain ⟨e, he'⟩ := ih hcd
          exact ⟨e, by rw [chunkPhrases, hcap, he']⟩

/-- C7: when the capability succeeds on every chunk, `extract_keywords`
returns the concatenation of the per-chunk phrase lists in chunk order,
deduplicated globally: the result has no duplicates, contains exactly
the extracted phrases, each exactly once, ordered by the position of
the first occurrence of each phrase in the concatenation. -/
theorem C7_extract_keywords_dedup (wrap : String → List String)
    (extractCap : String → Except String (List (String × ℚ))) (doc : String)
    (phr : List (List (String × ℚ))) (allPhrases : List String)
    (h : List.Forall₂ (fun c kws => extractCap c = .ok kws) (wrap doc) phr)
    (hall : (phr.map (fun kws => kws.map Prod.fst)).flatten = allPhrases) :
    extract_keywords wrap extractCap doc = dedupFirst allPhrases ∧
    (extract_keywords wrap extractCap doc).Nodup ∧
    (∀ p, p ∈ extract_keywords wrap extractCap doc ↔ p ∈ allPhrases) ∧
    (∀ p ∈ allPhrases, (extract_keywords wrap extractCap doc).count p = 1) ∧
    List.Pairwise (fun p q => allPhrases.indexOf p < allPhrases.indexOf q)
      (extract_keywords wrap extractCap doc) := by
  have heq : extract_keywords wrap extractCap doc = dedupFirst allPhrases := by
    rw [extract_keywords, chunkPhrases_ok _ _ _ h, hall]
  refine ⟨heq, ?_, ?_, ?_, ?_⟩
  · rw [heq]; exact nodup_dedupFirst allPhrases
  · intro p; rw [heq]; exact mem_dedupFirst allPhrases p
  · intro p hp; rw [heq]; exact count_dedupFirst allPhrases p hp
  · rw [heq]; exact pairwise_indexOf_dedupFirst allPhrases

/-- C7 witness: two chunks sharing the phrase "beta"; the output keeps
"beta" once, at its first position. -/
theorem C7_witness :
    extract_keywords (fun _ => ["c1", "c2"])
        (fun c => if c = "c1" then .ok [("alpha", 1), ("beta", 1)]
                  else .ok [("beta", 1), ("gamma", 1)]) "doc" =
      dedupFirst ["alpha", "beta", "beta", "gamma"] ∧
    (extract_keywords (fun _ => ["c1", "c2"])
        (fun c => if c = "c1" then .ok [("alpha", 1), ("beta", 1)]
                  else .ok [("beta", 1), ("gamma", 1)]) "doc").count "beta"
      = 1 := by
  have h := C7_extract_keywords_dedup (fun _ => ["c1", "c2"])
    (fun c => if c = "c1" then .ok [("alpha", 1), ("beta", 1)]
              else .ok [("beta", 1), ("gamma", 1)]) "doc"
    [[("alpha", 1), ("beta", 1)], [("beta", 1), ("gamma", 1)]]
    ["alpha", "beta", "beta", "gamma"]
    (by refine List.Forall₂.cons (by rfl) (List.Forall₂.cons (by rfl) List.Forall₂.nil))
    (by rfl)
  exact ⟨h.1, h.2.2.2.1 "beta" (by simp)⟩

/-- C4 counterexample: the `try/except` wraps the whole chunk loop, so
a capability failure on the second chunk discards the phrase already
extracted from the first chunk: the call returns `[]`, not `["alpha"]`. -/
theorem C4_counterexample :
    "alpha" ∉ extract_keywords (fun _ => ["c1", "c2"])
        (fun c => if c = "c1" then .ok [("alpha", 1)] else .error "boom")
        "doc" ∧
    (fun c => if c = "c1" then
        (.ok [("alpha", 1)] : Except String (List (String × ℚ)))
      else .error "boom") "c1" = .ok [("alpha", 1)] := by
  constructor
  · intro hmem
    have : extract_keywords (fun _ => ["c1", "c2"])
        (fun c => if c = "c1" then .ok [("alpha", 1)] else .error "boom")
        "doc" = [] := rfl
    rw [this] at hmem
    simp at hmem
  · rfl

/-- C4 amended: if the keyphrase capability fails on ANY chunk of the
document, `extract_keywords` returns `[]` for the whole document —
phrases from the other chunks are discarded too — and no exception
escapes (the failure is logged and the batch continues). -/
theorem C4_amended_failure_empties_doc (wrap : String → List String)
    (extractCap : String → Except String (List (String × ℚ))) (doc : String)
    (h : ∃ c ∈ wrap doc, isErr (extractCap c)) :
    extract_keywords wrap extractCap doc = [] := by
  obtain ⟨c, hc, he⟩ := h
  obtain ⟨e, he'⟩ := chunkPhrases_err extractCap (wrap doc) c hc he
  rw [extract_keywords, he']

/-- C4 witness: the amended statement applied to a two-chunk document
whose second chunk fails. -/
theorem C4_witness :
    extract_keywords (fun _ => ["c1", "c2"])
        (fun c => if c = "c1" then .ok [("alpha", 1)] else .error "boom")
        "doc" = [] :=
  C4_amended_failure_empties_doc (fun _ => ["c1", "c2"])
    (fun c => if c = "c1" then .ok [("alpha", 1)] else .error "boom") "doc"
    ⟨"c2", by simp, "boom", by rfl⟩

/-! ### Unsupervised naming and confidence -/

/-- C8 counterexample: in `AutoTopicModeler.assign_topic_names` the
"No Topic" guard tests the reported `Name` string, not the cluster id,
so a document in the sentinel cluster -1 whose summary `Name` is the
usual keyword-derived `"-1_apple_banana_cherry"` is renamed from its
keywords — not to the fixed "no topic" / "out of category" name. -/
theorem C8_counterexample :
    assign_topic_names [(-1, "-1_apple_banana_cherry")] [-1] =
      ["apple banana"] ∧
    ("apple banana" : String) ≠ "No Topic" ∧
    ("apple banana" : String) ≠ "خارج از دسته‌بندی" := by
  refine ⟨by decide, by decide, by decide⟩

/-- C8 amended: the sentinel guarantee holds in the categorizer path:
`Categorizer.assign_automatic_labels` maps every topic-summary row with
id -1 to the fixed label regardless of the keywords or the classifier;
in `AutoTopicModeler.assign_topic_names` the fixed name is used only
when the reported `Name` is literally "No Topic" or the id is missing
from the mapping. -/
theorem C8_amended_categorizer_sentinel
    (classify : String → List String → List String)
    (getTopics : Int → List (String × ℚ)) (topicIds : List Int) (dflt : String)
    (h : -1 ∈ topicIds) :
    dictGetI (assign_automatic_labels classify getTopics topicIds) (-1) dflt =
      "خارج از دسته‌بندی" := by
  rw [dictGetI, assign_automatic_labels]
  cases hf : ((topicIds.map
      (fun t => (t, autoLabelRow classify getTopics t))).reverse.find?
        (fun p => p.1 == -1)) with
  | none =>
      exfalso
      rw [List.find?_eq_none] at hf
      exact absurd (by simp)
        (hf (-1, autoLabelRow classify getTopics (-1))
          (List.mem_reverse.mpr (List.mem_map_of_mem _ h)))
  | some p =>
      have hmem := List.mem_of_find?_eq_some hf
      have hpred := List.find?_some hf
      rw [List.mem_reverse] at hmem
      obtain ⟨t, ht, hpt⟩ := List.mem_map.mp hmem
      rw [← hpt] at hpred
      have ht1 : t = -1 := by simpa using hpred
      subst ht1
      rw [← hpt]
      simp [autoLabelRow]

/-- C8 witness: the amended sentinel statement at a concrete topic list
containing -1, with trivial capability stand-ins. -/
theorem C8_witness :
    dictGetI (assign_automatic_labels (fun _ _ => []) (fun _ => [])
      [-1, 0]) (-1) "d" = "خارج از دسته‌بندی" :=
  C8_amended_categorizer_sentinel (fun _ _ => []) (fun _ => []) [-1, 0] "d"
    (by simp)

/-- C9 counterexample: for the cluster summary Name
`"0_alpha_beta_gamma"` (keyword tokens `alpha`, `beta`, `gamma` in
decreasing significance) the resolved display name is "alpha beta" —
the 1st and 2nd most significant keyword tokens — not the join
"beta gamma" of the 2nd and 3rd that the claim describes. -/
theorem C9_counterexample :
    assign_topic_names [(0, "0_alpha_beta_gamma")] [0] = ["alpha beta"] ∧
    specDisplayName ["alpha", "beta", "gamma"] = "beta gamma" ∧
    ("alpha beta" : String) ≠ "beta gamma" := by
  refine ⟨by decide, by decide, by decide⟩

/-- C9 amended: for a non-sentinel summary row whose `Name` splits on
underscores into the cluster-id field followed by the keyword tokens in
decreasing significance, the resolved display name joins the FIRST two
keyword tokens (split fields 1 and 2), not the 2nd and 3rd. -/
theorem C9_amended_join_top_two (name idTok : String) (kws : List String)
    (hsplit : pySplit name '_' = idTok :: kws) (hnt : name ≠ "No Topic") :
    nameResolve name = String.intercalate " " (kws.take 2) := by
  rw [nameResolve, if_pos hnt, joinSplitName, hsplit]
  simp

/-- C9 witness: the amended statement at the concrete Name
`"0_alpha_beta_gamma"`. -/
theorem C9_witness :
    nameResolve "0_alpha_beta_gamma" =
      String.intercalate " " ((["alpha", "beta", "gamma"] : List String).take 2) :=
  C9_amended_join_top_two "0_alpha_beta_gamma" "0" ["alpha", "beta", "gamma"]
    (by decide) (by decide)

/-- C10: the code's confidence expression
`probabilities[i][topic] if topic in probabilities[i] else 0` tests
VALUE membership on a NumPy row, so for a document assigned cluster 2
with probability row [0.1, 0.2, 0.7] the reported confidence is 0, not
the probability mass 0.7 at the assigned cluster id that the claim (and
the spec's mapping-based contract) prescribes; for the sentinel -1 it
is 0 as the claim says. -/
theorem C10_confidence_bug :
    assignedTopicProbs [[1/10, 2/10, 7/10]] [2] = [0] ∧
    ([1/10, 2/10, 7/10] : List ℚ).getD 2 0 = 7/10 ∧
    (7/10 : ℚ) ≠ 0 ∧
    assignedTopicProbs [[1/10, 2/10, 7/10]] [-1] = [0] := by
  refine ⟨?_, by norm_num, by norm_num, ?_⟩
  · norm_num [assignedTopicProbs, assignedTopicProb]
  · norm_num [assignedTopicProbs, assignedTopicProb]

end AIDataSec
